import Mathlib

/-!
# Verification of the printdiff string-diff renderer

Shallow embedding of the rendering/windowing engine of the `printdiff`
package (file `index.js` of the package, the extended version).  JavaScript
strings are modelled as `List Char`; JS numbers are `Nat` where they are
provably non-negative in the source and `Int` where the source relies on
negative values (`postContextLine`'s `-1` sentinel, `wrapWidth` arithmetic).
`substring(a, b)` with `a ≤ b` is modelled by `jsSub` (take then drop),
which clamps out-of-range bounds exactly as the JS method does.

The line-level change stream consumed by `_generateStringDiff` is the output
of the external `chardiff` collaborator; it is taken as an input
(`List ChangeRecord`) exactly as the specification treats it.  Fallible
array accesses of the source (`lines[curLine]` on an out-of-range index,
`colRes[colRes.length - 1]` on an empty array, both of which throw a
`TypeError` in JS) are modelled by `Option`: a `none` result is the
renderer signalling an error to the caller.
-/

/-- JavaScript strings are modelled as lists of characters. -/
abbrev Str := List Char

/-- The escape character `'\x1B'` that starts an ANSI color sequence. -/
def esc : Char := '\x1B'

/-- ANSI code for red (`'\x1B[31m'`). -/
def red : Str := "\x1B[31m".toList

/-- ANSI code for green (`'\x1B[32m'`). -/
def green : Str := "\x1B[32m".toList

/-- ANSI code for cyan (`'\x1B[36m'`). -/
def cyan : Str := "\x1B[36m".toList

/-- ANSI code that clears styling (`'\x1B[0m'`). -/
def clear : Str := "\x1B[0m".toList

/-- The literal `'...'` used for all truncation / gap markers. -/
def dotsStr : Str := "...".toList

/-- `n` spaces, the JS `new Array(n+1).join(' ')`. -/
def spaces (n : Nat) : Str := List.replicate n ' '

/-- JS `str.substring(a, b)` for `a ≤ b`: both bounds clamp to the string
length, negative bounds (which never occur at the call sites) clamp to 0. -/
def jsSub (s : Str) (a b : Nat) : Str := (s.take b).drop a

/-- JS `n + ''`: decimal rendering of a non-negative number. -/
def natStr (n : Nat) : Str := (Nat.repr n).toList

/-- JS `str.split('\n')`.  The result is always non-empty; splitting the
empty string yields `[""]`. -/
def splitNl : Str → List Str
  | [] => [[]]
  | c :: rest =>
    let r := splitNl rest
    if c = '\n' then [] :: r
    else
      match r with
      | h :: t => (c :: h) :: t
      | [] => [[c]]

/-- The five integer tunables of the string-diff renderer with their source
defaults (`maxChunks = 200`, `maxChunksPerLine = 20`, `maxColumns = 50`,
`contextLines = 3`, `contextColumns = 25`).  The source holds them in
module-level variables; following the spec's design note they are threaded
as an explicit configuration value. -/
structure Config where
  maxChunks : Nat
  maxChunksPerLine : Nat
  maxColumns : Nat
  contextLines : Nat
  contextColumns : Nat
deriving DecidableEq, Repr

/-- The source's default configuration. -/
def defaultConfig : Config :=
  { maxChunks := 200, maxChunksPerLine := 20, maxColumns := 50,
    contextLines := 3, contextColumns := 25 }

/-!
## `_lineBreak`: the escape-aware line wrapper

The source scans `str` with an index `i`, the start index `start` of the
current line, a visible-character count `ct` and an in-escape-sequence flag
`inSeq`.  The embedding consumes the remaining characters `rem`
(`rem = str.drop i` at every call) while carrying the index `i` so that the
`substring(start, i)` calls of the source can be expressed as slices of
`str`.
-/

/-- The scanning loop of `_lineBreak` (source lines 54–96).  `str` is the
whole input, `pfx` the indentation prefix, `ind` the indent amount, and
`rem` the characters not yet scanned (`str.drop i`). -/
def lbGo (str pfx : Str) (ind : Nat) :
    List Char → Nat → Nat → Nat → Bool → Int → Str → Str
  | [], _, start, _, _, _, result =>
    if start ≠ str.length then
      (if start ≠ 0 then result ++ '\n' :: pfx else result) ++
        jsSub str start str.length
    else result
  | c :: rest, i, start, ct, inSeq, ww, result =>
    if c = esc then
      lbGo str pfx ind rest (i + 1) start ct true ww result
    else if inSeq then
      if c = 'm' then lbGo str pfx ind rest (i + 1) start ct false ww result
      else lbGo str pfx ind rest (i + 1) start ct true ww result
    else
      if c = '\n' ∨ ((ct + 1 : Nat) : Int) = ww then
        let result1 := if start ≠ 0 then result ++ '\n' :: pfx else result
        let ww1 := if start ≠ 0 then ww else ww - ind
        let result2 := result1 ++
          (if c = '\n' then jsSub str start i else jsSub str start (i + 1))
        lbGo str pfx ind rest (i + 1) (i + 1) 0 inSeq ww1 result2
      else
        lbGo str pfx ind rest (i + 1) start (ct + 1) inSeq ww result

/-- `_lineBreak(str, indent, wrapWidth)` (source lines 37–97): wraps `str`
so that each wrapped line is indented by `ind`, treating ANSI escape
sequences as zero-width.  Fast path: a string whose raw length fits in the
width is returned unchanged. -/
def lineBreak (str : Str) (ind : Nat) (wrapWidth : Int) : Str :=
  if (str.length : Int) ≤ wrapWidth then str
  else lbGo str (spaces ind) ind str 0 0 0 false wrapWidth []

/-- The scanning loop of `_lineBreak` run unconditionally — the "full
character-scanning wrap algorithm" that the fast path of `lineBreak`
claims to agree with. -/
def lineBreakScan (str : Str) (ind : Nat) (wrapWidth : Int) : Str :=
  lbGo str (spaces ind) ind str 0 0 0 false wrapWidth []

/-- `_printLine(line, prefix, wrapWidth, style)` (source lines 99–118):
formats one logical line into one display row, padding the position prefix,
truncating an overlong body with `'...'` and wrapping in a style. -/
def printLine (line pfx : Str) (wrapWidth : Int) (style : Option Str) : Str :=
  let pfx2 := if 3 ≤ pfx.length then pfx ++ [' '] else pfx ++ spaces (4 - pfx.length)
  let ww := wrapWidth - pfx2.length
  let body := if (line.length : Int) > ww then line.take (ww - 3).toNat ++ dotsStr else line
  let row := pfx2 ++ body
  match style with
  | some st => st ++ row ++ clear
  | none => row

/-!
## `_printContextColumns` and the char-level sub-diff of one Replaced line
-/

/-- One entry of `colRes` (source comment at lines 292–295): the styled text
of one merged highlighted region plus its surrounding context, with its
start and end columns in the line. -/
structure ContextEntry where
  value : Str
  startColumn : Nat
  endColumn : Nat
deriving DecidableEq, Repr

/-- Mutating the last element of `colRes` in place (the JS
`colRes[colRes.length - 1]` updates); on the empty list (unreachable at
every call site, since `_printContextColumns` always leaves the list
non-empty) it is the identity. -/
def updLast (f : ContextEntry → ContextEntry) : List ContextEntry → List ContextEntry
  | [] => []
  | [e] => [f e]
  | e :: rest => e :: updLast f rest

/-- `_printContextColumns(colRes, line, curColumn)` (source lines 155–192):
prints post-context columns for the previous change and pre-context columns
for the change starting at `curColumn`, either growing the last entry or
closing it and opening a new one depending on the gap. -/
def printContextColumns (cc : Nat) (colRes : List ContextEntry) (line : Str)
    (curColumn : Nat) : List ContextEntry :=
  match colRes.getLast? with
  | some lastE =>
    if (curColumn : Int) - lastE.endColumn > 2 * cc then
      -- New entry: close the old one with trailing context and an ellipsis,
      -- open a new one with an ellipsis and leading context.
      colRes.dropLast ++
        [{ lastE with
             value := lastE.value ++ jsSub line lastE.endColumn (lastE.endColumn + cc) ++ dotsStr,
             endColumn := lastE.endColumn + cc },
         { value := dotsStr ++ jsSub line (curColumn - cc) curColumn,
           startColumn := curColumn - cc, endColumn := curColumn }]
    else
      -- Old entry: print the intervening columns into it.
      colRes.dropLast ++
        [{ lastE with
             value := lastE.value ++ jsSub line lastE.endColumn curColumn,
             endColumn := curColumn }]
  | none =>
    -- First change of the line: pre-context columns in a fresh entry.
    let start := curColumn - cc
    let e : ContextEntry :=
      { value := jsSub line start curColumn, startColumn := start, endColumn := curColumn }
    if 0 < start then [{ e with value := dotsStr ++ e.value }] else [e]

/-- A record of the char-level sub-diff of one Replaced line (the `diff`
member of a chardiff change record): unchanged span, removed text, added
text, or replaced text. -/
inductive CharChange where
  | eq (value : Str)
  | removed (left : Str)
  | added (right : Str)
  | replaced (left right : Str)
deriving DecidableEq, Repr

/-- Truncating one highlighted span to `maxColumns` characters plus an
ellipsis (source lines 313–317 and analogues). -/
def truncSpan (cfg : Config) (s : Str) : Str :=
  if s.length ≤ cfg.maxColumns then s else s.take cfg.maxColumns ++ dotsStr

/-- The char-level loop of the Changed branch (source lines 300–363):
consumes the sub-diff records in order, accumulating `colRes` and the
current column, and breaks as soon as more than `maxChunksPerLine` entries
exist (the check runs at the end of every iteration). -/
def processSubdiff (cfg : Config) (ln : Str) :
    List CharChange → List ContextEntry → Nat → List ContextEntry
  | [], colRes, _ => colRes
  | chg :: rest, colRes, curColumn =>
    match chg with
    | .eq v =>
      if cfg.maxChunksPerLine < colRes.length then colRes
      else processSubdiff cfg ln rest colRes (curColumn + v.length)
    | .removed l =>
      let cr := printContextColumns cfg.contextColumns colRes ln curColumn
      let cr := updLast (fun e =>
        { e with value := e.value ++ red ++ truncSpan cfg l ++ clear,
                 endColumn := e.endColumn + l.length }) cr
      if cfg.maxChunksPerLine < cr.length then cr
      else processSubdiff cfg ln rest cr (curColumn + l.length)
    | .added r =>
      let cr := printContextColumns cfg.contextColumns colRes ln curColumn
      let cr := updLast (fun e =>
        { e with value := e.value ++ green ++ truncSpan cfg r ++ clear }) cr
      if cfg.maxChunksPerLine < cr.length then cr
      else processSubdiff cfg ln rest cr curColumn
    | .replaced l r =>
      let cr := printContextColumns cfg.contextColumns colRes ln curColumn
      let cr := updLast (fun e =>
        { e with value := e.value ++ red ++ truncSpan cfg l ++ clear,
                 endColumn := e.endColumn + l.length }) cr
      let cr := updLast (fun e =>
        { e with value := e.value ++ green ++ truncSpan cfg r ++ clear }) cr
      if cfg.maxChunksPerLine < cr.length then cr
      else processSubdiff cfg ln rest cr (curColumn + l.length)

/-!
## Merging `colRes` entries into display rows (source lines 374–406)
-/

/-- The position prefix of one `colRes` entry: the 1-based line number, plus
the 1-based start column when it is not 1 (source lines 388–394). -/
def entryPfx (cur maxPrefixLen : Nat) (e : ContextEntry) : Str :=
  let p := if e.startColumn = 0 then natStr (cur + 1)
           else natStr (cur + 1) ++ [','] ++ natStr (e.startColumn + 1)
  cyan ++ p ++ clear ++ spaces (maxPrefixLen - p.length)

/-- The display rows of one `colRes` entry: prefix plus value, wrapped and
split at the inserted newlines (source line 396). -/
def entryRows (ww : Int) (cur maxPrefixLen : Nat) (e : ContextEntry) : List Str :=
  splitNl (lineBreak (entryPfx cur maxPrefixLen e ++ e.value) maxPrefixLen ww)

/-- The merge loop (source lines 383–406): appends each entry's rows,
keeping running counts; from the second entry on, if the per-line count
would exceed `maxChunksPerLine` or the total would exceed `maxChunks`, a
single `prefix ++ '...'` marker row is emitted instead and the loop stops.
`curLen` is the current length of the overall result list. -/
def mergeGo (cfg : Config) (ww : Int) (cur maxPrefixLen : Nat) :
    List ContextEntry → Bool → Nat → Nat → List Str
  | [], _, _, _ => []
  | e :: rest, isFirst, lineChunks, curLen =>
    let res := entryRows ww cur maxPrefixLen e
    let lineChunks2 := lineChunks + res.length
    if ¬ isFirst ∧ (cfg.maxChunksPerLine < lineChunks2 ∨ cfg.maxChunks < curLen + res.length) then
      [entryPfx cur maxPrefixLen e ++ dotsStr]
    else
      res ++ mergeGo cfg ww cur maxPrefixLen rest false lineChunks2 (curLen + res.length)

/-- The rows contributed to the result by the entries of one Replaced line,
given that the overall result already holds `baseLen` rows. -/
def mergeEntries (cfg : Config) (ww : Int) (cur maxPrefixLen baseLen : Nat)
    (colRes : List ContextEntry) : List Str :=
  mergeGo cfg ww cur maxPrefixLen colRes true 0 baseLen

/-!
## Line-context windows and the render loop
-/

/-- One finished display row.  `lineIdx` instruments the embedding with the
line index of operand `a` that the row newly reports: `some i` on a context
row for line `i` and on the first row of a removed or changed line;
`none` on added rows, on truncation/gap markers, and on the continuation
rows of a changed line (which repeat a line index already reported).  The
`text` component is exactly the string the source pushes. -/
structure Chunk where
  text : Str
  lineIdx : Option Nat
deriving DecidableEq, Repr

/-- The bare `'...'` gap/truncation marker row (source lines 142, 145, 422
and 431 push the raw string). -/
def dotsChunk : Chunk := { text := dotsStr, lineIdx := none }

/-- Context rows for lines `s, s+1, …, s+cnt-1` of `a`, each formatted by
`_printLine` with its 1-based line number and no style; `none` when some
index is out of range (the JS `lines[i]` yields `undefined` and
`_printLine` throws). -/
def ctxRowsRange (lines : List Str) : Nat → Nat → Int → Option (List Chunk)
  | _, 0, _ => some []
  | s, cnt + 1, ww =>
    match lines.get? s with
    | none => none
    | some l =>
      match ctxRowsRange lines (s + 1) cnt ww with
      | none => none
      | some rest =>
        some (({ text := printLine l (natStr (s + 1)) ww none,
                 lineIdx := some s } : Chunk) :: rest)

/-- The gap-marker rows of a context window: one bare `'...'` when this is
the very first change and it does not start at line 0, or when there is a
break between the previous window's end and this one's start (source lines
140–146). -/
def gapMarker (p q : Prop) [Decidable p] [Decidable q] : List Chunk :=
  if p then [dotsChunk] else if q then [dotsChunk] else []

/-- `_printContextLines(result, lines, curLine, postContextLine, wrapWidth)`
(source lines 122–151), returning the appended rows: post-context lines of
the previous change, then a gap marker if there is a break (or if the very
first change does not start at line 0), then pre-context lines of the
current change.  `cur` is an `Int` because the final call of the render
loop can pass `postContextLine + contextLines = -1 + contextLines`, which
is negative when `contextLines = 0`. -/
def contextRows (lines : List Str) (cur post : Int) (ctxL : Nat) (ww : Int) :
    Option (List Chunk) :=
  let endLine1 : Int := if 0 ≤ post then min (post + ctxL) cur else 0
  match (if 0 ≤ post then ctxRowsRange lines post.toNat (endLine1 - post).toNat ww
         else some []) with
  | none => none
  | some rows1 =>
    let startLine : Int := max (max (cur - ctxL) endLine1) 0
    let marker : List Chunk := gapMarker (post < 0 ∧ 0 < startLine) (endLine1 < startLine)
    match ctxRowsRange lines startLine.toNat (cur - startLine).toNat ww with
    | none => none
    | some rows2 => some (rows1 ++ marker ++ rows2)

/-- A record of the line-level change stream produced by the external
chardiff collaborator: unchanged line, removed line, added text, or a
changed line with its char-level sub-diff.  Only the members the renderer
reads are modelled (`change.right` of an Added record, `change.diff` of a
Changed record). -/
inductive ChangeRecord where
  | eq
  | removed
  | added (right : Str)
  | replaced (diff : List CharChange)
deriving DecidableEq, Repr

/-- Stripping the trailing line break of an added line (source lines
271–274). -/
def stripNl (r : Str) : Str :=
  if r.getLast? = some '\n' then r.dropLast else r

/-- The `'...'` pushed after breaking out of the loop when records remain
(source lines 429–432): `i < changeset.length - 1` is `rest ≠ []`. -/
def breakTail (rest : List ChangeRecord) (r : List Chunk) : List Chunk :=
  if rest = [] then r else r ++ [dotsChunk]

/-- The rows of one Replaced line, given the changed line `ln`, its
sub-diff and the number of rows already emitted: the char-level loop, the
final post-context columns and trailing ellipsis (source lines 365–371),
the prefix-width computation (lines 374–381) and the merge loop; `none`
when `colRes` ends up empty (the JS `colRes[colRes.length - 1]` access on
an empty array at line 365 throws). -/
def replacedRows (cfg : Config) (ww : Int) (cur baseLen : Nat) (ln : Str)
    (diff : List CharChange) : Option (List Str) :=
  let colRes := processSubdiff cfg ln diff [] 0
  match colRes.getLast? with
  | none => none
  | some last1 =>
    let colRes2 := printContextColumns cfg.contextColumns colRes ln
      (min (last1.endColumn + cfg.contextColumns) ln.length)
    match colRes2.getLast? with
    | none => none
    | some last2 =>
      let colRes3 := if last2.endColumn < ln.length then
          updLast (fun e => { e with value := e.value ++ dotsStr }) colRes2
        else colRes2
      let maxPrefixLen := max
        (if last2.startColumn = 0 then (natStr (cur + 1)).length + 1
         else (natStr (cur + 1) ++ [','] ++ natStr (last2.startColumn + 1)).length + 1) 4
      some (mergeEntries cfg ww cur maxPrefixLen baseLen colRes3)

/-- Tagging the rows of one Replaced line: the first row newly reports the
line's index, the others repeat it. -/
def tagRows (cur : Nat) : List Str → List Chunk
  | [] => []
  | r0 :: rtl => ⟨r0, some cur⟩ :: rtl.map (⟨·, none⟩)

/-- The main loop of `_generateStringDiff` (source lines 237–433) over the
change stream, with state `cur` (the upcoming line number in `a`), `post`
(the first post-context line of the last change, `-1` if none) and the
rows emitted so far.  A `none` result models the JS `TypeError` thrown on
an out-of-range `lines[curLine]` access or on reading the last entry of an
empty `colRes`. -/
def renderLoop (lines : List Str) (cfg : Config) (ww : Int) :
    List ChangeRecord → Nat → Int → List Chunk → Option (List Chunk)
  | [], _, post, result =>
    -- Loop finished normally: post-context lines for the last change, then
    -- an ellipsis if the end of the input was not reached (lines 415–423).
    match contextRows lines (min (post + cfg.contextLines) (lines.length : Int)) post
        cfg.contextLines ww with
    | none => none
    | some ctx =>
      some (if post + cfg.contextLines < (lines.length : Int) then
              result ++ ctx ++ [dotsChunk]
            else result ++ ctx)
  | .eq :: rest, cur, post, result =>
    renderLoop lines cfg ww rest (cur + 1) post result
  | .removed :: rest, cur, post, result =>
    match contextRows lines cur post cfg.contextLines ww with
    | none => none
    | some ctx =>
      let r1 := result ++ ctx
      if cfg.maxChunks ≤ r1.length then
        some (breakTail rest (r1 ++ [⟨printLine dotsStr (natStr (cur + 1)) ww (some red), none⟩]))
      else
        match lines.get? cur with
        | none => none
        | some ln =>
          renderLoop lines cfg ww rest (cur + 1) (cur + 1)
            (r1 ++ [⟨printLine ln (natStr (cur + 1)) ww (some red), some cur⟩])
  | .added right :: rest, cur, post, result =>
    match contextRows lines cur post cfg.contextLines ww with
    | none => none
    | some ctx =>
      let r1 := result ++ ctx
      if cfg.maxChunks ≤ r1.length then
        some (breakTail rest (r1 ++ [⟨printLine dotsStr [] ww (some green), none⟩]))
      else
        renderLoop lines cfg ww rest cur cur
          (r1 ++ [⟨printLine (stripNl right) [] ww (some green), none⟩])
  | .replaced diff :: rest, cur, post, result =>
    match contextRows lines cur post cfg.contextLines ww with
    | none => none
    | some ctx =>
      let r1 := result ++ ctx
      if cfg.maxChunks ≤ r1.length then
        some (breakTail rest (r1 ++ [⟨printLine dotsStr (natStr (cur + 1)) ww (some cyan), none⟩]))
      else
        match lines.get? cur with
        | none => none
        | some ln =>
          match replacedRows cfg ww cur r1.length ln diff with
          | none => none
          | some rows =>
            renderLoop lines cfg ww rest (cur + 1) (cur + 1) (r1 ++ tagRows cur rows)

/-- `a.split('\n')` with a trailing empty line dropped (source lines
211–216). -/
def prepLines (a : Str) : List Str :=
  let ls := splitNl a
  if ls.getLast? = some [] then ls.dropLast else ls

/-- `_generateStringDiff(a, b, wrapWidth)` (source lines 209–436), taking
the change stream — the output of the external `charDiff(a, b)` — as an
input.  Operand `b` is consumed only through that stream (`change.right`),
so it does not appear as a separate argument. -/
def generateStringDiff (a : Str) (changeset : List ChangeRecord) (cfg : Config)
    (ww : Int) : Option (List Chunk) :=
  renderLoop (prepLines a) cfg ww changeset 0 (-1) []

/-!
## `configStringDiff` (source lines 543–561) and the `printdiff` entry point
(source lines 521–541)
-/

/-- A character JS `parseInt` skips as leading whitespace. -/
def isWsChar (c : Char) : Bool :=
  c = ' ' ∨ c = '\t' ∨ c = '\n' ∨ c = '\r' ∨ c = '\x0b' ∨ c = '\x0c'

/-- JS `parseInt(s, 10)`: skip leading whitespace, read an optional sign and
then leading decimal digits; the result is `NaN` (modelled `none`) when no
digit follows. -/
def jsParseInt (s : Str) : Option Int :=
  let s1 := s.dropWhile isWsChar
  let sign : Int := match s1 with
    | '-' :: _ => -1
    | _ => 1
  let s2 := match s1 with
    | '-' :: t => t
    | '+' :: t => t
    | t => t
  let ds := s2.takeWhile Char.isDigit
  if ds = [] then none
  else some (sign * (ds.foldl (fun acc c => acc * 10 + (c.toNat - '0'.toNat)) 0 : Nat))

/-- The five module-level tunables as JS numbers; `none` models `NaN`. -/
structure StringDiffState where
  maxChunks : Option Int
  maxChunksPerLine : Option Int
  maxColumns : Option Int
  contextLines : Option Int
  contextColumns : Option Int
deriving DecidableEq, Repr

/-- The module-level initial values of the tunables. -/
def initialState : StringDiffState :=
  { maxChunks := some 200, maxChunksPerLine := some 20, maxColumns := some 50,
    contextLines := some 3, contextColumns := some 25 }

/-- `printdiff.configStringDiff(...)` (source lines 543–561): each argument
is either `undefined` (`none`, setting untouched) or a supplied value,
modelled by the string JS coerces it to; a supplied value is assigned
`parseInt(value, 10)` with no further check. -/
def configStringDiff (mc mcpl mcol cl cc : Option Str) (st : StringDiffState) :
    StringDiffState :=
  { maxChunks := match mc with | none => st.maxChunks | some s => jsParseInt s,
    maxChunksPerLine := match mcpl with | none => st.maxChunksPerLine | some s => jsParseInt s,
    maxColumns := match mcol with | none => st.maxColumns | some s => jsParseInt s,
    contextLines := match cl with | none => st.contextLines | some s => jsParseInt s,
    contextColumns := match cc with | none => st.contextColumns | some s => jsParseInt s }

/-- The value of the JS `options.output` slot: `undefined`, `null`, or some
output stream. -/
inductive JsOutVal where
  | undef
  | nullv
  | stream
deriving DecidableEq, Repr

/-- The caller's `options` object as `printdiff` reads and writes it. -/
structure OptionsObj where
  colors : Option Bool
  output : JsOutVal
  wrapWidth : Option Int
deriving DecidableEq, Repr

/-- The mutation `printdiff(a, b, options)` performs on a caller-supplied
`options` object (source lines 526–533): `colors` is set to `true`,
`output` to `null`, and `wrapWidth` to the detected terminal width
(`process.stdout.columns`, possibly `undefined`) when it was `undefined`.
The returned record is the state of the caller's object after the call. -/
def printdiffOptionsEffect (o : OptionsObj) (consoleColumns : Option Int) : OptionsObj :=
  { o with colors := some true, output := .nullv,
           wrapWidth := if o.wrapWidth = none then consoleColumns else o.wrapWidth }

/-!
## Specification-level view of the wrapper: row spans and escape sequences

These definitions are the independent vocabulary in which the wrapping
claims are stated: `escAt` recomputes the in-sequence flag at a position by
a direct fold, `visCount` counts the visible (non-escape) characters of a
span, `lbRows` lists the half-open spans of the physical rows the scanning
loop produces, and `renderRows` renders such spans the way the loop
assembles its result.
-/

/-- One step of the escape-sequence scanner: an `ESC` starts a sequence, an
`'m'` inside one ends it. -/
def nextEscFlag (b : Bool) (c : Char) : Bool :=
  if c = esc then true
  else if b then (if c = 'm' then false else true)
  else false

/-- Whether position `n` of `str` is inside an escape sequence opened
earlier (the flag before the character at `n` is processed). -/
def escAt (str : Str) (n : Nat) : Bool := (str.take n).foldl nextEscFlag false

/-- Whether the character at position `k` of `str` is visible: neither
inside an escape sequence nor an `ESC` itself. -/
def visAt (str : Str) (k : Nat) : Bool :=
  !escAt str k && decide (str.getD k ' ' ≠ esc)

/-- The number of visible characters in positions `[a, b)` of `str`. -/
def visCount (str : Str) (a b : Nat) : Nat :=
  ((List.range' a (b - a)).filter (visAt str)).length

/-- The row spans produced by the scanning loop of `_lineBreak`: the same
recursion as `lbGo`, recording for each physical row the half-open span of
`str` it displays instead of assembling the output string. -/
def lbRows (str : Str) (ind : Nat) :
    List Char → Nat → Nat → Nat → Bool → Int → List (Nat × Nat)
  | [], _, start, _, _, _ =>
    if start ≠ str.length then [(start, str.length)] else []
  | c :: rest, i, start, ct, inSeq, ww =>
    if c = esc then lbRows str ind rest (i + 1) start ct true ww
    else if inSeq then
      if c = 'm' then lbRows str ind rest (i + 1) start ct false ww
      else lbRows str ind rest (i + 1) start ct true ww
    else
      if c = '\n' ∨ ((ct + 1 : Nat) : Int) = ww then
        let ww1 := if start ≠ 0 then ww else ww - ind
        (start, if c = '\n' then i else i + 1) ::
          lbRows str ind rest (i + 1) (i + 1) 0 inSeq ww1
      else lbRows str ind rest (i + 1) start (ct + 1) inSeq ww

/-- Assembling row spans into the output string: the first physical row
(span starting at 0) is emitted bare, every later row is preceded by a
newline and the indentation prefix. -/
def renderRows (str pfx : Str) : List (Nat × Nat) → Str
  | [] => []
  | (s, e) :: rest =>
    (if s ≠ 0 then '\n' :: pfx else []) ++ jsSub str s e ++ renderRows str pfx rest

/-- The row spans of `lineBreak str ind ww`: a single span on the fast
path, the scanned spans otherwise. -/
def lineBreakRows (str : Str) (ind : Nat) (ww : Int) : List (Nat × Nat) :=
  if (str.length : Int) ≤ ww then [(0, str.length)]
  else lbRows str ind str 0 0 0 false ww

/-- The effective width against which a row starting at position `s` is
closed: the full width for the first physical row, the width less the
indent for continuation rows. -/
def effWidth (ind : Nat) (ww : Int) (s : Nat) : Int :=
  if s = 0 then ww else ww - ind

/-!
## Concrete scenarios used by counterexamples and witnesses
-/

/-- The eight-line operand of the test scenarios. -/
def a8 : Str := "a\nb\nc\nd\ne\nf\ng\nh\n".toList

/-- A change stream with a single removed line at index 4 (line 5). -/
def cs8 : List ChangeRecord := [.eq, .eq, .eq, .eq, .removed, .eq, .eq, .eq]

/-- The default configuration with the global row ceiling lowered to 1. -/
def cfgC2 : Config := { defaultConfig with maxChunks := 1 }

/-- The default configuration with the per-line row ceiling lowered to 1. -/
def cfgC3 : Config := { defaultConfig with maxChunksPerLine := 1 }

/-- A 30-character line. -/
def lnC3 : Str := "abcdefghijklmnopqrstuvwxyz0123".toList

/-- How many columns of the changed line a char-level sub-diff covers: the
lengths of its Equal, Removed and Replaced (left) spans. -/
def coverLen : List CharChange → Nat
  | [] => 0
  | .eq v :: rest => v.length + coverLen rest
  | .removed l :: rest => l.length + coverLen rest
  | .added _ :: rest => coverLen rest
  | .replaced l _ :: rest => l.length + coverLen rest

/-- Whether a change stream contains a Replaced record. -/
def hasReplaced : List ChangeRecord → Bool
  | [] => false
  | .eq :: rest => hasReplaced rest
  | .removed :: rest => hasReplaced rest
  | .added _ :: rest => hasReplaced rest
  | .replaced _ :: _ => true

/-- Whether a char-level record is a change (not an Equal span). -/
def nonEqChar : CharChange → Bool
  | .eq _ => false
  | .removed _ => true
  | .added _ => true
  | .replaced _ _ => true

/-- Well-formedness of a change stream against the `L` lines of operand
`a`, starting at line `n`: every line-consuming record (Equal, Removed,
Replaced) stays within the lines of `a`, and every Replaced sub-diff
contains at least one non-Equal change. -/
def wfFrom : List ChangeRecord → Nat → Nat → Bool
  | [], _, _ => true
  | .eq :: rest, n, L => decide (n < L) && wfFrom rest (n + 1) L
  | .removed :: rest, n, L => decide (n < L) && wfFrom rest (n + 1) L
  | .added _ :: rest, n, L => wfFrom rest n L
  | .replaced d :: rest, n, L => decide (n < L) && d.any nonEqChar && wfFrom rest (n + 1) L

/-- The sequence of line indices of operand `a` reported by a list of
rows, in emission order. -/
def chunkIdxs (l : List Chunk) : List Nat := l.filterMap Chunk.lineIdx

/-!
## Claim theorems
-/

/-- C1 (code bug in the source): for the pair of equal one-line inputs
`a = b = "x\n"` — whose change stream is the single Equal record — the
render is *not* the empty chunk list the claim (and the source's own doc
comment, "returns: empty if equal") promises: the final context pass runs
with `postContextLine = -1` and re-emits the leading line of `a` as a
context row. -/
theorem C1_equal_stream_nonempty :
    (generateStringDiff "x\n".toList [.eq] defaultConfig 80).map List.length = some 1 ∧
    generateStringDiff "x\n".toList [.eq] defaultConfig 80 ≠ some [] := by
  constructor
  · decide
  · decide

/-- C2, counterexample: with `maxChunks = 1` the render of a removed line
in the middle of the eight-line operand emits 6 rows (gap marker, three
context rows, truncation marker, trailing ellipsis), exceeding
`maxChunks + 1 = 2`: context rows are appended without consulting the
global ceiling. -/
theorem C2_counterexample :
    (generateStringDiff a8 cs8 cfgC2 80).map List.length = some 6 ∧
    cfgC2.maxChunks + 1 < 6 := by
  constructor
  · decide
  · decide

set_option maxRecDepth 8000 in
/-- C3, counterexample: with `maxChunksPerLine = 1` and wrap width 5, a
single Replaced line whose one merged entry wraps into 32 physical rows
emits all 32 of them — the per-line ceiling is only consulted from the
second entry on, so the first entry's rows are unbounded by it. -/
theorem C3_counterexample :
    (generateStringDiff (lnC3 ++ ['\n']) [.replaced [.replaced lnC3 ['x']]] cfgC3 5).map
      List.length = some 32 ∧
    cfgC3.maxChunksPerLine + 1 < 32 := by
  constructor
  · decide
  · decide

/-- C8, counterexample: `"a\n"` has raw length `2 ≤ 10`, so the fast path
returns it unchanged, but the full character-scanning algorithm consumes
the newline (emitting the first row without it) and returns `"a"` — the
fast path is *not* equivalent to the scan on inputs containing a
newline. -/
theorem C8_counterexample :
    (("a\n".toList : Str).length : Int) ≤ 10 ∧
    lineBreak "a\n".toList 4 10 ≠ lineBreakScan "a\n".toList 4 10 := by
  constructor
  · decide
  · decide

/-- C9, counterexample: a Replaced record whose sub-diff covers only one of
the two columns of the changed line `"xy"` — structurally inconsistent in
the claim's sense — is rendered silently (the render succeeds), not
signalled as an error. -/
theorem C9_counterexample :
    coverLen [.removed ['x']] < ("xy".toList : Str).length ∧
    (generateStringDiff "xy\n".toList [.replaced [.removed ['x']]] defaultConfig 80).isSome
      = true := by
  constructor
  · decide
  · decide

/-- C4, counterexample: configuring `maxChunks` with the non-numeric
override `"abc"` does not retain the previous value 200 — the source
assigns `parseInt("abc", 10)`, i.e. `NaN`, unchecked. -/
theorem C4_counterexample :
    (configStringDiff (some "abc".toList) none none none none initialState).maxChunks ≠
      initialState.maxChunks := by decide

/-- C4, amended: an `undefined` override leaves every setting unchanged,
but a supplied non-numeric override sets the setting to `NaN` (it does not
retain the previous value); the assignment itself never fails. -/
theorem C4_amended (st : StringDiffState) (s : Str) (h : jsParseInt s = none) :
    configStringDiff none none none none none st = st ∧
    configStringDiff (some s) (some s) (some s) (some s) (some s) st =
      { maxChunks := none, maxChunksPerLine := none, maxColumns := none,
        contextLines := none, contextColumns := none } := by
  constructor
  · rfl
  · simp [configStringDiff, h]

/-- C4, witness: the amended statement at the initial state with the
non-numeric override `"abc"`. -/
theorem C4_amended_witness :
    configStringDiff none none none none none initialState = initialState ∧
    configStringDiff (some "abc".toList) (some "abc".toList) (some "abc".toList)
        (some "abc".toList) (some "abc".toList) initialState =
      { maxChunks := none, maxChunksPerLine := none, maxColumns := none,
        contextLines := none, contextColumns := none } :=
  C4_amended initialState "abc".toList (by decide)

/-- C10: calling `printdiff` with an options object overwrites the caller's
fields: `colors` becomes `true`, `output` becomes `null`, and `wrapWidth`
is replaced by the detected terminal width exactly when it was
`undefined`; the record returned by `printdiffOptionsEffect` is the state
of the caller's object after the call. -/
theorem C10_options_mutation (o : OptionsObj) (cc : Option Int) :
    (printdiffOptionsEffect o cc).colors = some true ∧
    (printdiffOptionsEffect o cc).output = JsOutVal.nullv ∧
    (printdiffOptionsEffect o cc).wrapWidth =
      (if o.wrapWidth = none then cc else o.wrapWidth) :=
  ⟨rfl, rfl, rfl⟩

/-- C7: processing the spans of one Replaced line, when an entry already
exists: a gap of at most `2 × contextColumns` between the entry's end
column and the new span's start grows the same entry by the intervening
plain text; a larger gap closes the entry with up to `contextColumns`
trailing-context characters plus an ellipsis and opens a new entry holding
an ellipsis plus `contextColumns` characters of leading context. -/
theorem C7_span_merging (cc : Nat) (colRes : List ContextEntry) (line : Str)
    (curColumn : Nat) (lastE : ContextEntry)
    (hlast : colRes.getLast? = some lastE)
    (hle : lastE.endColumn ≤ curColumn) :
    (curColumn - lastE.endColumn ≤ 2 * cc →
      printContextColumns cc colRes line curColumn =
        colRes.dropLast ++
          [{ lastE with
               value := lastE.value ++ jsSub line lastE.endColumn curColumn,
               endColumn := curColumn }]) ∧
    (2 * cc < curColumn - lastE.endColumn →
      printContextColumns cc colRes line curColumn =
        colRes.dropLast ++
          [{ lastE with
               value := lastE.value ++ jsSub line lastE.endColumn (lastE.endColumn + cc) ++ dotsStr,
               endColumn := lastE.endColumn + cc },
           { value := dotsStr ++ jsSub line (curColumn - cc) curColumn,
             startColumn := curColumn - cc, endColumn := curColumn }]) := by
  simp only [printContextColumns, hlast]
  constructor
  · intro h
    rw [if_neg (by omega)]
  · intro h
    rw [if_pos (by omega)]

/-- C7, witness: a one-entry accumulator ending at column 3 with
`contextColumns = 2`; a next span at column 5 (gap 2 ≤ 4) grows the entry,
a next span at column 10 (gap 7 > 4) closes it and opens a second one. -/
theorem C7_span_merging_witness :
    printContextColumns 2 [⟨"v".toList, 0, 3⟩] "abcdefghijkl".toList 5 =
      [⟨"v".toList ++ jsSub "abcdefghijkl".toList 3 5, 0, 5⟩] ∧
    printContextColumns 2 [⟨"v".toList, 0, 3⟩] "abcdefghijkl".toList 10 =
      [⟨"v".toList ++ jsSub "abcdefghijkl".toList 3 5 ++ dotsStr, 0, 5⟩,
       ⟨dotsStr ++ jsSub "abcdefghijkl".toList 8 10, 8, 10⟩] := by
  constructor
  · have h := (C7_span_merging 2 [⟨"v".toList, 0, 3⟩] "abcdefghijkl".toList 5
      ⟨"v".toList, 0, 3⟩ rfl (by decide)).1 (by decide)
    simpa using h
  · have h := (C7_span_merging 2 [⟨"v".toList, 0, 3⟩] "abcdefghijkl".toList 10
      ⟨"v".toList, 0, 3⟩ rfl (by decide)).2 (by decide)
    simpa using h

/-- Facts recovered from `l.drop i = c :: rest`: the index is in range, the
drop advances one step, the character at `i` is `c`, and `c` occurs in
`l`. -/
theorem dropFacts : ∀ (l : List Char) (i : Nat) (c : Char) (rest : List Char),
    l.drop i = c :: rest →
    i < l.length ∧ l.drop (i + 1) = rest ∧ l.getD i ' ' = c ∧ l[i]? = some c ∧ c ∈ l := by
  intro l
  induction l with
  | nil => intro i c rest h; simp at h
  | cons x t ih =>
    intro i c rest h
    cases i with
    | zero =>
      simp only [List.drop_zero] at h
      cases h
      simp
    | succ n =>
      rw [List.drop_succ_cons] at h
      obtain ⟨h1, h2, h3, h4, h5⟩ := ih n c rest h
      refine ⟨by simpa using Nat.succ_lt_succ h1, by simpa using h2, by simpa using h3,
        by simpa using h4, List.mem_cons_of_mem x h5⟩

/-- The scanning loop of `_lineBreak`, started on a newline-free string
whose raw length fits in the width, reproduces the string: no break other
than possibly one at the very last character can trigger, and that one
flushes the whole string. -/
theorem lbGo_fits (str pfx : Str) (ind : Nat) :
    ∀ (rem : List Char) (i ct : Nat) (inSeq : Bool) (ww : Int),
      rem = str.drop i → ct ≤ i → (str.length : Int) ≤ ww → '\n' ∉ str →
      lbGo str pfx ind rem i 0 ct inSeq ww [] = str := by
  intro rem
  induction rem with
  | nil =>
    intro i ct inSeq ww hrem hct hww hnl
    by_cases h0 : str.length = 0
    · rw [List.length_eq_zero] at h0
      simp [lbGo, h0]
    · have : (0 : Nat) ≠ str.length := fun h => h0 h.symm
      simp [lbGo, this, jsSub]
  | cons c rest ih =>
    intro i ct inSeq ww hrem hct hww hnl
    obtain ⟨hi, hrest, _, _, hmem⟩ := dropFacts str i c rest hrem.symm
    have hcnl : c ≠ '\n' := fun h => hnl (h ▸ hmem)
    unfold lbGo
    by_cases hesc : c = esc
    · simp only [if_pos hesc]
      exact ih (i + 1) ct true ww hrest.symm (by omega) hww hnl
    · simp only [if_neg hesc]
      cases inSeq with
      | true =>
        by_cases hm : c = 'm'
        · simp only [hm, if_pos rfl, if_true]
          exact ih (i + 1) ct false ww hrest.symm (by omega) hww hnl
        · simp only [if_neg hm, if_true]
          exact ih (i + 1) ct true ww hrest.symm (by omega) hww hnl
      | false =>
        simp only [Bool.false_eq_true, if_false]
        by_cases hbr : (c = '\n' ∨ ((ct + 1 : Nat) : Int) = ww)
        · have hw : ((ct + 1 : Nat) : Int) = ww := hbr.resolve_left hcnl
          have hiend : i + 1 = str.length := by omega
          have hrest0 : rest = [] := by
            rw [← hrest, hiend, List.drop_length]
          simp only [if_pos hbr, hrest0]
          have h10 : ¬ ((0 : Nat) ≠ 0) := by simp
          simp only [h10, if_false, if_neg hcnl]
          unfold lbGo
          rw [if_neg (by omega)]
          simp [jsSub, hiend]
        · simp only [if_neg hbr]
          exact ih (i + 1) (ct + 1) false ww hrest.symm (by omega) hww hnl

/-- C8, amended: for every input whose raw length (escape sequences
included) is at most the width, the fast path returns the input unchanged,
and — provided the input contains no newline character — so does the full
character-scanning wrap algorithm; the two agree on all newline-free
inputs that fit, but not on ones containing a newline
(`C8_counterexample`). -/
theorem C8_amended (str : Str) (ind : Nat) (ww : Int)
    (hlen : (str.length : Int) ≤ ww) (hnl : '\n' ∉ str) :
    lineBreak str ind ww = str ∧ lineBreakScan str ind ww = str := by
  constructor
  · unfold lineBreak
    rw [if_pos hlen]
  · unfold lineBreakScan
    exact lbGo_fits str (spaces ind) ind str 0 0 false ww (by simp) (Nat.le_refl 0) hlen hnl

/-- C8, witness: the amended statement at `"abc"`, indent 4, width 10. -/
theorem C8_amended_witness :
    lineBreak "abc".toList 4 10 = "abc".toList ∧
    lineBreakScan "abc".toList 4 10 = "abc".toList :=
  C8_amended "abc".toList 4 10 (by decide) (by decide)

/-- From the second entry on, the merge loop adds rows only while the
running per-line count stays within `maxChunksPerLine`, plus at most one
marker row. -/
theorem mergeGo_length_bound (cfg : Config) (ww : Int) (cur mpl : Nat) :
    ∀ (rest : List ContextEntry) (lineChunks curLen : Nat),
      lineChunks + (mergeGo cfg ww cur mpl rest false lineChunks curLen).length ≤
        max cfg.maxChunksPerLine lineChunks + 1 := by
  intro rest
  induction rest with
  | nil =>
    intro lc cl
    simp only [mergeGo, List.length_nil]
    omega
  | cons e r ih =>
    intro lc cl
    simp only [mergeGo]
    by_cases hg : (cfg.maxChunksPerLine < lc + (entryRows ww cur mpl e).length ∨
        cfg.maxChunks < cl + (entryRows ww cur mpl e).length)
    · rw [if_pos (by simpa using hg)]
      simp only [List.length_singleton]
      omega
    · rw [if_neg (by simpa using hg)]
      push_neg at hg
      have hrec := ih (lc + (entryRows ww cur mpl e).length)
        (cl + (entryRows ww cur mpl e).length)
      rw [List.length_append]
      omega

/-- C3, amended: the rows emitted for one Replaced line are bounded by
`max(maxChunksPerLine, h₀) + 1` where `h₀` is the wrapped height of the
line's first merged entry: the first entry is always emitted in full, every
later entry only while the per-line ceiling holds, and tripping the ceiling
costs one marker row; the loop is local to the line, so processing
continues with the next change record. -/
theorem C3_amended (cfg : Config) (ww : Int) (cur maxPrefixLen baseLen : Nat)
    (colRes : List ContextEntry) (h : colRes ≠ []) :
    (mergeEntries cfg ww cur maxPrefixLen baseLen colRes).length ≤
      max cfg.maxChunksPerLine (entryRows ww cur maxPrefixLen (colRes.head h)).length + 1 := by
  cases colRes with
  | nil => exact absurd rfl h
  | cons e rest =>
    simp only [mergeEntries, mergeGo, List.head_cons]
    rw [if_neg (by simp)]
    rw [List.length_append]
    have hrec := mergeGo_length_bound cfg ww cur maxPrefixLen rest
      (0 + (entryRows ww cur maxPrefixLen e).length)
      (baseLen + (entryRows ww cur maxPrefixLen e).length)
    omega

/-- C3, witness: the amended bound at a one-entry accumulator with the
per-line ceiling 1 and wrap width 5. -/
theorem C3_amended_witness :
    (mergeEntries cfgC3 5 0 4 0 [⟨"wxyz".toList, 0, 4⟩]).length ≤
      max cfgC3.maxChunksPerLine
        (entryRows 5 0 4 (List.head [⟨"wxyz".toList, 0, 4⟩] (by decide))).length + 1 :=
  C3_amended cfgC3 5 0 4 0 [⟨"wxyz".toList, 0, 4⟩] (by decide)

/-- A gap marker is at most one row. -/
theorem gapMarker_length (p q : Prop) [Decidable p] [Decidable q] :
    (gapMarker p q).length ≤ 1 := by
  unfold gapMarker
  split
  · simp
  · split <;> simp

/-- Gap-marker rows report no line index. -/
theorem gapMarker_idxs (p q : Prop) [Decidable p] [Decidable q] :
    (gapMarker p q).filterMap Chunk.lineIdx = [] := by
  unfold gapMarker
  split
  · simp [dotsChunk]
  · split <;> simp [dotsChunk]

/-- A successful `ctxRowsRange` call produces one row per requested line,
tagged with exactly the requested indices. -/
theorem ctxRowsRange_spec (lines : List Str) (ww : Int) :
    ∀ (cnt s : Nat) (l : List Chunk), ctxRowsRange lines s cnt ww = some l →
      l.length = cnt ∧ l.filterMap Chunk.lineIdx = List.range' s cnt := by
  intro cnt
  induction cnt with
  | zero =>
    intro s l h
    simp only [ctxRowsRange, Option.some.injEq] at h
    subst h
    simp
  | succ n ih =>
    intro s l h
    simp only [ctxRowsRange] at h
    cases hg : lines.get? s with
    | none => rw [hg] at h; simp at h
    | some ln =>
      rw [hg] at h
      cases hr : ctxRowsRange lines (s + 1) n ww with
      | none => rw [hr] at h; simp at h
      | some rest =>
        rw [hr] at h
        simp only [Option.some.injEq] at h
        subst h
        obtain ⟨h1, h2⟩ := ih (s + 1) rest hr
        refine ⟨by simp [h1], ?_⟩
        rw [List.range'_succ]
        simp [List.filterMap_cons, h2]

/-- `ctxRowsRange` succeeds when the requested range stays within the
lines of `a`. -/
theorem ctxRowsRange_isSome (lines : List Str) (ww : Int) :
    ∀ (cnt s : Nat), s + cnt ≤ lines.length →
      (ctxRowsRange lines s cnt ww).isSome = true := by
  intro cnt
  induction cnt with
  | zero => intro s _; simp [ctxRowsRange]
  | succ n ih =>
    intro s hs
    have hlt : s < lines.length := by omega
    simp only [ctxRowsRange]
    cases hg : lines.get? s with
    | none =>
      rw [List.get?_eq_none] at hg
      omega
    | some ln =>
      have := ih (s + 1) (by omega)
      cases hr : ctxRowsRange lines (s + 1) n ww with
      | none => rw [hr] at this; simp at this
      | some rest => simp

/-- A successful context-window call appends at most `2 × contextLines + 1`
rows: up to `contextLines` post-context rows, one gap marker, and up to
`contextLines` pre-context rows. -/
theorem contextRows_length (lines : List Str) (cur post : Int) (c : Nat) (ww : Int)
    (l : List Chunk) (h : contextRows lines cur post c ww = some l) :
    l.length ≤ 2 * c + 1 := by
  simp only [contextRows] at h
  cases h1 : (if 0 ≤ post then
      ctxRowsRange lines post.toNat
        ((if 0 ≤ post then min (post + ↑c) cur else 0) - post).toNat ww
    else some []) with
  | none => rw [h1] at h; simp at h
  | some rows1 =>
    rw [h1] at h
    cases h2 : ctxRowsRange lines
        (max (max (cur - ↑c) (if 0 ≤ post then min (post + ↑c) cur else 0)) 0).toNat
        (cur - max (max (cur - ↑c) (if 0 ≤ post then min (post + ↑c) cur else 0)) 0).toNat ww with
    | none => rw [h2] at h; simp at h
    | some rows2 =>
      rw [h2] at h
      simp only [Option.some.injEq] at h
      subst h
      have hr2 := (ctxRowsRange_spec lines ww _ _ rows2 h2).1
      have hb1 : rows1.length ≤ c := by
        by_cases hp : 0 ≤ post
        · rw [if_pos hp] at h1
          have := (ctxRowsRange_spec lines ww _ _ rows1 h1).1
          rw [this]
          rw [if_pos hp]
          omega
        · rw [if_neg hp] at h1
          simp only [Option.some.injEq] at h1
          subst h1
          simp
      have hb2 : rows2.length ≤ c := by
        rw [hr2]
        omega
      simp only [List.length_append]
      have hm := gapMarker_length
        (post < 0 ∧ 0 < max (max (cur - ↑c) (if 0 ≤ post then min (post + ↑c) cur else 0)) 0)
        ((if 0 ≤ post then min (post + ↑c) cur else 0) <
          max (max (cur - ↑c) (if 0 ≤ post then min (post + ↑c) cur else 0)) 0)
      omega

/-- `ctxRowsRange` trivially succeeds on an empty range, and otherwise when
the range stays in bounds. -/
theorem ctxRowsRange_isSome2 (lines : List Str) (ww : Int) (s cnt : Nat)
    (h : cnt = 0 ∨ s + cnt ≤ lines.length) :
    (ctxRowsRange lines s cnt ww).isSome = true := by
  cases h with
  | inl h0 => subst h0; simp [ctxRowsRange]
  | inr hle => exact ctxRowsRange_isSome lines ww cnt s hle

/-- A context-window call succeeds whenever the current position does not
exceed the number of lines of `a` — every line it touches lies strictly
below `cur`. -/
theorem contextRows_isSome (lines : List Str) (cur post : Int) (c : Nat) (ww : Int)
    (hcur : cur ≤ (lines.length : Int)) :
    (contextRows lines cur post c ww).isSome = true := by
  simp only [contextRows]
  have h1 : (if 0 ≤ post then
      ctxRowsRange lines post.toNat
        ((if 0 ≤ post then min (post + (c : Int)) cur else 0) - post).toNat ww
    else some []).isSome = true := by
    by_cases hp : 0 ≤ post
    · rw [if_pos hp]
      apply ctxRowsRange_isSome2
      rw [if_pos hp]
      by_cases hz : min (post + (c : Int)) cur ≤ post
      · left
        omega
      · right
        have hE1c : min (post + (c : Int)) cur ≤ cur := min_le_right _ _
        omega
    · rw [if_neg hp]
      rfl
  cases hm1 : (if 0 ≤ post then
      ctxRowsRange lines post.toNat
        ((if 0 ≤ post then min (post + (c : Int)) cur else 0) - post).toNat ww
    else some []) with
  | none => rw [hm1] at h1; simp at h1
  | some rows1 =>
    have h2 : (ctxRowsRange lines
        (max (max (cur - (c : Int)) (if 0 ≤ post then min (post + (c : Int)) cur else 0)) 0).toNat
        (cur - max (max (cur - (c : Int)) (if 0 ≤ post then min (post + (c : Int)) cur else 0)) 0).toNat
        ww).isSome = true := by
      apply ctxRowsRange_isSome2
      by_cases hz : cur ≤ max (max (cur - (c : Int)) (if 0 ≤ post then min (post + (c : Int)) cur else 0)) 0
      · left
        omega
      · right
        have hSL0 : (0 : Int) ≤
            max (max (cur - (c : Int)) (if 0 ≤ post then min (post + (c : Int)) cur else 0)) 0 :=
          le_max_right _ _
        omega
    cases hm2 : ctxRowsRange lines
        (max (max (cur - (c : Int)) (if 0 ≤ post then min (post + (c : Int)) cur else 0)) 0).toNat
        (cur - max (max (cur - (c : Int)) (if 0 ≤ post then min (post + (c : Int)) cur else 0)) 0).toNat
        ww with
    | none => rw [hm2] at h2; simp at h2
    | some rows2 => simp

/-- `range' s n` is strictly increasing. -/
theorem pairwise_lt_range' : ∀ (n s : Nat), (List.range' s n).Pairwise (· < ·) := by
  intro n
  induction n with
  | zero => intro s; simp
  | succ m ih =>
    intro s
    rw [List.range'_succ]
    refine List.Pairwise.cons ?_ (ih (s + 1))
    intro b hb
    have := (List.mem_range'_1.mp hb).1
    omega

/-- The line indices reported by a successful context-window call: strictly
increasing, all strictly below `cur`, and none below `post` — a window
never re-emits a line at or before the pending post-context start and never
reaches the current line. -/
theorem contextRows_idxs (lines : List Str) (cur post : Int) (c : Nat) (ww : Int)
    (l : List Chunk) (h : contextRows lines cur post c ww = some l)
    (hpc : post ≤ cur) :
    (l.filterMap Chunk.lineIdx).Pairwise (· < ·) ∧
    ∀ j ∈ l.filterMap Chunk.lineIdx, (j : Int) < cur ∧ post ≤ (j : Int) := by
  by_cases hp : 0 ≤ post
  · simp only [contextRows, if_pos hp] at h
    cases hm1 : ctxRowsRange lines post.toNat (min (post + (c : Int)) cur - post).toNat ww with
    | none => rw [hm1] at h; simp at h
    | some rows1 =>
      rw [hm1] at h
      cases hm2 : ctxRowsRange lines
          (max (max (cur - (c : Int)) (min (post + (c : Int)) cur)) 0).toNat
          (cur - max (max (cur - (c : Int)) (min (post + (c : Int)) cur)) 0).toNat ww with
      | none => rw [hm2] at h; simp at h
      | some rows2 =>
        rw [hm2] at h
        simp only [Option.some.injEq] at h
        subst h
        have hi1 := (ctxRowsRange_spec lines ww _ _ rows1 hm1).2
        have hi2 := (ctxRowsRange_spec lines ww _ _ rows2 hm2).2
        have hE1 : post ≤ min (post + (c : Int)) cur := by omega
        have hSL : min (post + (c : Int)) cur ≤
            max (max (cur - (c : Int)) (min (post + (c : Int)) cur)) 0 := by omega
        have hSL0 : (0 : Int) ≤
            max (max (cur - (c : Int)) (min (post + (c : Int)) cur)) 0 := by omega
        simp only [List.filterMap_append, gapMarker_idxs, hi1, hi2, List.append_nil]
        constructor
        · rw [List.pairwise_append]
          refine ⟨pairwise_lt_range' _ _, pairwise_lt_range' _ _, ?_⟩
          intro x hx y hy
          have hx' := List.mem_range'_1.mp hx
          have hy' := List.mem_range'_1.mp hy
          omega
        · intro j hj
          rw [List.mem_append] at hj
          cases hj with
          | inl hj1 =>
            have := List.mem_range'_1.mp hj1
            omega
          | inr hj2 =>
            have := List.mem_range'_1.mp hj2
            omega
  · simp only [contextRows, if_neg hp] at h
    cases hm2 : ctxRowsRange lines
        (max (max (cur - (c : Int)) 0) 0).toNat
        (cur - max (max (cur - (c : Int)) 0) 0).toNat ww with
    | none => rw [hm2] at h; simp at h
    | some rows2 =>
      rw [hm2] at h
      simp only [Option.some.injEq] at h
      subst h
      have hi2 := (ctxRowsRange_spec lines ww _ _ rows2 hm2).2
      simp only [List.nil_append, List.filterMap_append, gapMarker_idxs, hi2,
        List.nil_append]
      constructor
      · exact pairwise_lt_range' _ _
      · intro j hj
        have := List.mem_range'_1.mp hj
        omega

/-- For change streams without Replaced records, the render loop keeps the
row count within `maxChunks + 2⋅contextLines + 3`: the global ceiling is
consulted before each change row, and one context window (at most
`2⋅contextLines + 1` rows), one truncation marker and one trailing ellipsis
can land after the last consultation. -/
theorem renderLoop_bound (lines : List Str) (cfg : Config) (ww : Int) :
    ∀ (cs : List ChangeRecord) (cur : Nat) (post : Int) (result : List Chunk)
      (r : List Chunk),
      hasReplaced cs = false →
      result.length ≤ cfg.maxChunks →
      renderLoop lines cfg ww cs cur post result = some r →
      r.length ≤ cfg.maxChunks + 2 * cfg.contextLines + 3 := by
  intro cs
  induction cs with
  | nil =>
    intro cur post result r _ hlen h
    simp only [renderLoop] at h
    cases hc : contextRows lines (min (post + cfg.contextLines) (lines.length : Int)) post
        cfg.contextLines ww with
    | none => rw [hc] at h; simp at h
    | some ctx =>
      rw [hc] at h
      simp only [Option.some.injEq] at h
      subst h
      have hb := contextRows_length lines _ post cfg.contextLines ww ctx hc
      split
      · simp only [List.length_append, List.length_singleton]
        omega
      · simp only [List.length_append]
        omega
  | cons rec rest ih =>
    intro cur post result r hnr hlen h
    cases rec with
    | eq =>
      simp only [renderLoop] at h
      exact ih (cur + 1) post result r hnr hlen h
    | removed =>
      simp only [renderLoop] at h
      cases hc : contextRows lines cur post cfg.contextLines ww with
      | none => rw [hc] at h; simp at h
      | some ctx =>
        rw [hc] at h
        simp only [] at h
        have hb := contextRows_length lines cur post cfg.contextLines ww ctx hc
        by_cases hg : cfg.maxChunks ≤ (result ++ ctx).length
        · rw [if_pos hg] at h
          simp only [Option.some.injEq] at h
          subst h
          unfold breakTail
          split
          · simp only [List.length_append, List.length_singleton]
            simp only [List.length_append] at hg
            omega
          · simp only [List.length_append, List.length_singleton]
            simp only [List.length_append] at hg
            omega
        · rw [if_neg hg] at h
          cases hget : lines.get? cur with
          | none => rw [hget] at h; simp at h
          | some ln =>
            rw [hget] at h
            simp only [] at h
            refine ih (cur + 1) (cur + 1) _ r hnr ?_ h
            simp only [List.length_append, List.length_singleton]
            simp only [List.length_append, not_le] at hg
            omega
    | added right =>
      simp only [renderLoop] at h
      cases hc : contextRows lines cur post cfg.contextLines ww with
      | none => rw [hc] at h; simp at h
      | some ctx =>
        rw [hc] at h
        simp only [] at h
        have hb := contextRows_length lines cur post cfg.contextLines ww ctx hc
        by_cases hg : cfg.maxChunks ≤ (result ++ ctx).length
        · rw [if_pos hg] at h
          simp only [Option.some.injEq] at h
          subst h
          unfold breakTail
          split
          · simp only [List.length_append, List.length_singleton]
            simp only [List.length_append] at hg
            omega
          · simp only [List.length_append, List.length_singleton]
            simp only [List.length_append] at hg
            omega
        · rw [if_neg hg] at h
          refine ih cur cur _ r hnr ?_ h
          simp only [List.length_append, List.length_singleton]
          simp only [List.length_append, not_le] at hg
          omega
    | replaced diff =>
      exact absurd hnr (by simp [hasReplaced])

/-- C2, amended: the global ceiling is consulted before each change row but
not before context rows, gap markers or a Replaced line's first merged
entry, so `maxChunks + 1` can be exceeded (`C2_counterexample`); for change
streams without Replaced records the total row count is bounded by
`maxChunks + 2⋅contextLines + 3`. -/
theorem C2_amended (a : Str) (cs : List ChangeRecord) (cfg : Config) (ww : Int)
    (r : List Chunk) (hnr : hasReplaced cs = false)
    (h : generateStringDiff a cs cfg ww = some r) :
    r.length ≤ cfg.maxChunks + 2 * cfg.contextLines + 3 :=
  renderLoop_bound (prepLines a) cfg ww cs 0 (-1) [] r hnr (by simp) h

/-- C2, witness: the amended bound at the counterexample's own input — 6
rows, within `1 + 2⋅3 + 3 = 10`. -/
theorem C2_amended_witness :
    (generateStringDiff a8 cs8 cfgC2 80).elim False
      (fun r => r.length ≤ cfgC2.maxChunks + 2 * cfgC2.contextLines + 3) := by
  cases h : generateStringDiff a8 cs8 cfgC2 80 with
  | none => exact absurd h (by decide)
  | some r =>
    simp only [Option.elim]
    exact C2_amended a8 cs8 cfgC2 80 r (by decide) h

/-- Reported indices distribute over append. -/
theorem chunkIdxs_append (a b : List Chunk) :
    chunkIdxs (a ++ b) = chunkIdxs a ++ chunkIdxs b := by
  simp [chunkIdxs]

/-- A row with no index reports nothing. -/
theorem chunkIdxs_snoc_none (rc : List Chunk) (t : Str) :
    chunkIdxs (rc ++ [⟨t, none⟩]) = chunkIdxs rc := by
  simp [chunkIdxs]

/-- The trailing break ellipsis reports no index. -/
theorem chunkIdxs_breakTail (rest : List ChangeRecord) (r : List Chunk) :
    chunkIdxs (breakTail rest r) = chunkIdxs r := by
  unfold breakTail
  split
  · rfl
  · exact chunkIdxs_snoc_none r dotsStr

/-- The rows of one Replaced line report its index once (and nothing when
there are no rows). -/
theorem chunkIdxs_tagRows (cur : Nat) (rows : List Str) :
    chunkIdxs (tagRows cur rows) = if rows = [] then [] else [cur] := by
  cases rows with
  | nil => rfl
  | cons r0 rtl =>
    have hmap : ∀ (l : List Str),
        (l.map (fun t => (⟨t, none⟩ : Chunk))).filterMap Chunk.lineIdx = [] := by
      intro l
      induction l with
      | nil => rfl
      | cons x xs ihx => simp [List.filterMap_cons, ihx]
    simp [tagRows, chunkIdxs, List.filterMap_cons, hmap]

/-- `contextRows_idxs` without the `post ≤ cur` side condition: when the
window is asked about a position before the pending post-context start it
emits no indexed rows at all. -/
theorem contextRows_idxs_all (lines : List Str) (cur post : Int) (c : Nat) (ww : Int)
    (l : List Chunk) (h : contextRows lines cur post c ww = some l) :
    (l.filterMap Chunk.lineIdx).Pairwise (· < ·) ∧
    ∀ j ∈ l.filterMap Chunk.lineIdx, (j : Int) < cur ∧ post ≤ (j : Int) := by
  by_cases hpc : post ≤ cur
  · exact contextRows_idxs lines cur post c ww l h hpc
  · have hnil : l.filterMap Chunk.lineIdx = [] := by
      by_cases hp : 0 ≤ post
      · simp only [contextRows, if_pos hp] at h
        cases hm1 : ctxRowsRange lines post.toNat (min (post + (c : Int)) cur - post).toNat ww with
        | none => rw [hm1] at h; simp at h
        | some rows1 =>
          rw [hm1] at h
          cases hm2 : ctxRowsRange lines
              (max (max (cur - (c : Int)) (min (post + (c : Int)) cur)) 0).toNat
              (cur - max (max (cur - (c : Int)) (min (post + (c : Int)) cur)) 0).toNat ww with
          | none => rw [hm2] at h; simp at h
          | some rows2 =>
            rw [hm2] at h
            simp only [Option.some.injEq] at h
            subst h
            have h1 := (ctxRowsRange_spec lines ww _ _ rows1 hm1).1
            have h2 := (ctxRowsRange_spec lines ww _ _ rows2 hm2).1
            have e1 : rows1 = [] := by
              rw [← List.length_eq_zero, h1]
              omega
            have e2 : rows2 = [] := by
              rw [← List.length_eq_zero, h2]
              omega
            subst e1
            subst e2
            simp [gapMarker_idxs]
      · simp only [contextRows, if_neg hp] at h
        cases hm2 : ctxRowsRange lines
            (max (max (cur - (c : Int)) 0) 0).toNat
            (cur - max (max (cur - (c : Int)) 0) 0).toNat ww with
        | none => rw [hm2] at h; simp at h
        | some rows2 =>
          rw [hm2] at h
          simp only [Option.some.injEq] at h
          subst h
          have h2 := (ctxRowsRange_spec lines ww _ _ rows2 hm2).1
          have e2 : rows2 = [] := by
            rw [← List.length_eq_zero, h2]
            omega
          subst e2
          simp [gapMarker_idxs]
    rw [hnil]
    exact ⟨List.Pairwise.nil, by simp [hnil]⟩

/-- Render-loop invariant for line indices: if the rows emitted so far
report strictly increasing indices, all below the pending post-context
start, then every successful continuation reports strictly increasing
indices overall. -/
theorem renderLoop_idxs (lines : List Str) (cfg : Config) (ww : Int) :
    ∀ (cs : List ChangeRecord) (cur : Nat) (post : Int) (result r : List Chunk),
      post ≤ (cur : Int) →
      (chunkIdxs result).Pairwise (· < ·) →
      (∀ j ∈ chunkIdxs result, (j : Int) < post) →
      renderLoop lines cfg ww cs cur post result = some r →
      (chunkIdxs r).Pairwise (· < ·) := by
  intro cs
  induction cs with
  | nil =>
    intro cur post result r _ hrp hrb h
    simp only [renderLoop] at h
    cases hc : contextRows lines (min (post + cfg.contextLines) (lines.length : Int)) post
        cfg.contextLines ww with
    | none => rw [hc] at h; simp at h
    | some ctx =>
      rw [hc] at h
      simp only [Option.some.injEq] at h
      subst h
      obtain ⟨hcp, hcb⟩ := contextRows_idxs_all lines _ post cfg.contextLines ww ctx hc
      have hjoin : (chunkIdxs (result ++ ctx)).Pairwise (· < ·) := by
        rw [chunkIdxs_append, List.pairwise_append]
        refine ⟨hrp, hcp, ?_⟩
        intro x hx y hy
        have hx' := hrb x hx
        have hy' := (hcb y hy).2
        omega
      split
      · have heq : chunkIdxs (result ++ ctx ++ [dotsChunk]) = chunkIdxs (result ++ ctx) :=
          chunkIdxs_snoc_none (result ++ ctx) dotsStr
        rw [heq]
        exact hjoin
      · exact hjoin
  | cons rec rest ih =>
    intro cur post result r hpc hrp hrb h
    cases rec with
    | eq =>
      simp only [renderLoop] at h
      exact ih (cur + 1) post result r (by omega) hrp (fun j hj => by
        have := hrb j hj
        omega) h
    | removed =>
      simp only [renderLoop] at h
      cases hc : contextRows lines cur post cfg.contextLines ww with
      | none => rw [hc] at h; simp at h
      | some ctx =>
        rw [hc] at h
        simp only [] at h
        obtain ⟨hcp, hcb⟩ := contextRows_idxs_all lines cur post cfg.contextLines ww ctx hc
        have hjoin : (chunkIdxs (result ++ ctx)).Pairwise (· < ·) := by
          rw [chunkIdxs_append, List.pairwise_append]
          refine ⟨hrp, hcp, ?_⟩
          intro x hx y hy
          have hx' := hrb x hx
          have hy' := (hcb y hy).2
          omega
        have hjoinB : ∀ j ∈ chunkIdxs (result ++ ctx), (j : Int) < cur := by
          intro j hj
          rw [chunkIdxs_append, List.mem_append] at hj
          cases hj with
          | inl h1 =>
            have := hrb j h1
            omega
          | inr h2 => exact (hcb j h2).1
        by_cases hg : cfg.maxChunks ≤ (result ++ ctx).length
        · rw [if_pos hg] at h
          simp only [Option.some.injEq] at h
          subst h
          rw [chunkIdxs_breakTail, chunkIdxs_snoc_none]
          exact hjoin
        · rw [if_neg hg] at h
          cases hget : lines.get? cur with
          | none => rw [hget] at h; simp at h
          | some ln =>
            rw [hget] at h
            simp only [] at h
            refine ih (cur + 1) (cur + 1) _ r (by omega) ?_ ?_ h
            · rw [chunkIdxs_append, List.pairwise_append]
              refine ⟨hjoin, by simp [chunkIdxs], ?_⟩
              intro x hx y hy
              simp only [chunkIdxs, List.filterMap_cons, List.filterMap_nil] at hy
              simp only [List.mem_singleton] at hy
              subst hy
              have := hjoinB x hx
              omega
            · intro j hj
              rw [chunkIdxs_append, List.mem_append] at hj
              cases hj with
              | inl h1 =>
                have := hjoinB j h1
                omega
              | inr h2 =>
                simp only [chunkIdxs, List.filterMap_cons, List.filterMap_nil] at h2
                simp only [List.mem_singleton] at h2
                subst h2
                omega
    | added right =>
      simp only [renderLoop] at h
      cases hc : contextRows lines cur post cfg.contextLines ww with
      | none => rw [hc] at h; simp at h
      | some ctx =>
        rw [hc] at h
        simp only [] at h
        obtain ⟨hcp, hcb⟩ := contextRows_idxs_all lines cur post cfg.contextLines ww ctx hc
        have hjoin : (chunkIdxs (result ++ ctx)).Pairwise (· < ·) := by
          rw [chunkIdxs_append, List.pairwise_append]
          refine ⟨hrp, hcp, ?_⟩
          intro x hx y hy
          have hx' := hrb x hx
          have hy' := (hcb y hy).2
          omega
        have hjoinB : ∀ j ∈ chunkIdxs (result ++ ctx), (j : Int) < cur := by
          intro j hj
          rw [chunkIdxs_append, List.mem_append] at hj
          cases hj with
          | inl h1 =>
            have := hrb j h1
            omega
          | inr h2 => exact (hcb j h2).1
        by_cases hg : cfg.maxChunks ≤ (result ++ ctx).length
        · rw [if_pos hg] at h
          simp only [Option.some.injEq] at h
          subst h
          rw [chunkIdxs_breakTail, chunkIdxs_snoc_none]
          exact hjoin
        · rw [if_neg hg] at h
          have heq : chunkIdxs (result ++ ctx ++ [(⟨printLine (stripNl right) [] ww
              (some green), none⟩ : Chunk)]) = chunkIdxs (result ++ ctx) :=
            chunkIdxs_snoc_none (result ++ ctx) (printLine (stripNl right) [] ww (some green))
          refine ih cur cur _ r (by omega) ?_ ?_ h
          · rw [heq]
            exact hjoin
          · intro j hj
            rw [heq] at hj
            exact hjoinB j hj
    | replaced diff =>
      simp only [renderLoop] at h
      cases hc : contextRows lines cur post cfg.contextLines ww with
      | none => rw [hc] at h; simp at h
      | some ctx =>
        rw [hc] at h
        simp only [] at h
        obtain ⟨hcp, hcb⟩ := contextRows_idxs_all lines cur post cfg.contextLines ww ctx hc
        have hjoin : (chunkIdxs (result ++ ctx)).Pairwise (· < ·) := by
          rw [chunkIdxs_append, List.pairwise_append]
          refine ⟨hrp, hcp, ?_⟩
          intro x hx y hy
          have hx' := hrb x hx
          have hy' := (hcb y hy).2
          omega
        have hjoinB : ∀ j ∈ chunkIdxs (result ++ ctx), (j : Int) < cur := by
          intro j hj
          rw [chunkIdxs_append, List.mem_append] at hj
          cases hj with
          | inl h1 =>
            have := hrb j h1
            omega
          | inr h2 => exact (hcb j h2).1
        by_cases hg : cfg.maxChunks ≤ (result ++ ctx).length
        · rw [if_pos hg] at h
          simp only [Option.some.injEq] at h
          subst h
          rw [chunkIdxs_breakTail, chunkIdxs_snoc_none]
          exact hjoin
        · rw [if_neg hg] at h
          cases hget : lines.get? cur with
          | none => rw [hget] at h; simp at h
          | some ln =>
            rw [hget] at h
            simp only [] at h
            cases hrr : replacedRows cfg ww cur (result ++ ctx).length ln diff with
            | none => rw [hrr] at h; simp at h
            | some rows =>
              rw [hrr] at h
              simp only [] at h
              refine ih (cur + 1) (cur + 1) _ r (by omega) ?_ ?_ h
              · rw [chunkIdxs_append, List.pairwise_append, chunkIdxs_tagRows]
                refine ⟨hjoin, by split <;> simp, ?_⟩
                intro x hx y hy
                split at hy
                · simp at hy
                · simp only [List.mem_singleton] at hy
                  subst hy
                  have := hjoinB x hx
                  omega
              · intro j hj
                rw [chunkIdxs_append, List.mem_append, chunkIdxs_tagRows] at hj
                cases hj with
                | inl h1 =>
                  have := hjoinB j h1
                  omega
                | inr h2 =>
                  split at h2
                  · simp at h2
                  · simp only [List.mem_singleton] at h2
                    subst h2
                    omega

/-- C6: within a single render, the line indices of `a` reported by the
emitted rows — context rows, removed rows and the first row of each
changed line — are strictly increasing: no window re-emits a line index an
earlier window or change row already emitted. -/
theorem C6_monotone_line_indices (a : Str) (cs : List ChangeRecord) (cfg : Config)
    (ww : Int) (r : List Chunk)
    (h : generateStringDiff a cs cfg ww = some r) :
    (chunkIdxs r).Pairwise (· < ·) :=
  renderLoop_idxs (prepLines a) cfg ww cs 0 (-1) [] r (by omega)
    (by simp [chunkIdxs]) (by simp [chunkIdxs]) h

/-- C6, witness: the strictly increasing index sequence of the removed-line
scenario under the default configuration. -/
theorem C6_monotone_line_indices_witness :
    (generateStringDiff a8 cs8 defaultConfig 80).elim False
      (fun r => (chunkIdxs r).Pairwise (· < ·)) := by
  cases h : generateStringDiff a8 cs8 defaultConfig 80 with
  | none => exact absurd h (by decide)
  | some r =>
    simp only [Option.elim]
    exact C6_monotone_line_indices a8 cs8 defaultConfig 80 r h

/-- `_printContextColumns` always leaves a non-empty accumulator. -/
theorem printContextColumns_ne_nil (cc : Nat) (colRes : List ContextEntry) (line : Str)
    (cur : Nat) : printContextColumns cc colRes line cur ≠ [] := by
  unfold printContextColumns
  split
  · split
    · simp
    · simp
  · simp only []
    split
    · simp
    · simp

/-- Updating the last entry preserves non-emptiness. -/
theorem updLast_ne_nil (f : ContextEntry → ContextEntry) :
    ∀ (l : List ContextEntry), l ≠ [] → updLast f l ≠ [] := by
  intro l h
  cases l with
  | nil => exact absurd rfl h
  | cons e rest =>
    cases rest with
    | nil => simp [updLast]
    | cons x xs => simp [updLast]

/-- The char-level loop returns a non-empty accumulator as soon as it
starts non-empty or the sub-diff contains a change. -/
theorem processSubdiff_ne_nil (cfg : Config) (ln : Str) :
    ∀ (diff : List CharChange) (colRes : List ContextEntry) (cur : Nat),
      (colRes ≠ [] ∨ diff.any nonEqChar = true) →
      processSubdiff cfg ln diff colRes cur ≠ [] := by
  intro diff
  induction diff with
  | nil =>
    intro colRes cur h
    simp only [processSubdiff]
    rcases h with h | h
    · exact h
    · simp at h
  | cons chg rest ih =>
    intro colRes cur h
    cases chg with
    | eq v =>
      simp only [processSubdiff]
      split
      · rename_i hlt
        intro hc
        rw [hc] at hlt
        simp at hlt
      · apply ih
        rcases h with h | h
        · exact Or.inl h
        · right
          simpa [nonEqChar] using h
    | removed l =>
      simp only [processSubdiff]
      split
      · exact updLast_ne_nil _ _ (printContextColumns_ne_nil _ _ _ _)
      · exact ih _ _ (Or.inl (updLast_ne_nil _ _ (printContextColumns_ne_nil _ _ _ _)))
    | added r =>
      simp only [processSubdiff]
      split
      · exact updLast_ne_nil _ _ (printContextColumns_ne_nil _ _ _ _)
      · exact ih _ _ (Or.inl (updLast_ne_nil _ _ (printContextColumns_ne_nil _ _ _ _)))
    | replaced l r =>
      simp only [processSubdiff]
      split
      · exact updLast_ne_nil _ _ (updLast_ne_nil _ _ (printContextColumns_ne_nil _ _ _ _))
      · exact ih _ _ (Or.inl (updLast_ne_nil _ _ (updLast_ne_nil _ _
          (printContextColumns_ne_nil _ _ _ _))))

/-- On an all-Equal (or empty) sub-diff the char-level loop produces
nothing. -/
theorem processSubdiff_all_eq (cfg : Config) (ln : Str) :
    ∀ (diff : List CharChange) (cur : Nat), diff.any nonEqChar = false →
      processSubdiff cfg ln diff [] cur = [] := by
  intro diff
  induction diff with
  | nil => intro cur _; rfl
  | cons chg rest ih =>
    intro cur h
    cases chg with
    | eq v =>
      simp only [processSubdiff]
      split
      · rename_i hlt
        simp at hlt
      · apply ih
        simpa [nonEqChar] using h
    | removed l => simp [nonEqChar] at h
    | added r => simp [nonEqChar] at h
    | replaced l r => simp [nonEqChar] at h

/-- A Replaced line whose sub-diff contains a change renders without
error. -/
theorem replacedRows_isSome (cfg : Config) (ww : Int) (cur baseLen : Nat) (ln : Str)
    (d : List CharChange) (h : d.any nonEqChar = true) :
    (replacedRows cfg ww cur baseLen ln d).isSome = true := by
  unfold replacedRows
  simp only []
  have h1 : processSubdiff cfg ln d [] 0 ≠ [] :=
    processSubdiff_ne_nil cfg ln d [] 0 (Or.inr h)
  cases hg : (processSubdiff cfg ln d [] 0).getLast? with
  | none =>
    rw [List.getLast?_eq_none_iff] at hg
    exact absurd hg h1
  | some last1 =>
    simp only []
    have h2 : printContextColumns cfg.contextColumns (processSubdiff cfg ln d [] 0) ln
        (min (last1.endColumn + cfg.contextColumns) ln.length) ≠ [] :=
      printContextColumns_ne_nil _ _ _ _
    cases hg2 : (printContextColumns cfg.contextColumns (processSubdiff cfg ln d [] 0) ln
        (min (last1.endColumn + cfg.contextColumns) ln.length)).getLast? with
    | none =>
      rw [List.getLast?_eq_none_iff] at hg2
      exact absurd hg2 h2
    | some last2 =>
      simp

/-- A Replaced line whose sub-diff contains no change is an error. -/
theorem replacedRows_all_eq (cfg : Config) (ww : Int) (cur baseLen : Nat) (ln : Str)
    (d : List CharChange) (h : d.any nonEqChar = false) :
    replacedRows cfg ww cur baseLen ln d = none := by
  unfold replacedRows
  rw [processSubdiff_all_eq cfg ln d 0 h]
  rfl

/-- Under well-formedness of the remaining stream, and with the current
line within `a`, the render loop never hits an error branch. -/
theorem renderLoop_wf_isSome (lines : List Str) (cfg : Config) (ww : Int) :
    ∀ (cs : List ChangeRecord) (cur : Nat) (post : Int) (result : List Chunk),
      wfFrom cs cur lines.length = true →
      cur ≤ lines.length →
      (renderLoop lines cfg ww cs cur post result).isSome = true := by
  intro cs
  induction cs with
  | nil =>
    intro cur post result _ _
    simp only [renderLoop]
    have hs := contextRows_isSome lines (min (post + cfg.contextLines) (lines.length : Int))
      post cfg.contextLines ww (min_le_right _ _)
    cases hc : contextRows lines (min (post + cfg.contextLines) (lines.length : Int)) post
        cfg.contextLines ww with
    | none => rw [hc] at hs; simp at hs
    | some ctx => simp
  | cons rec rest ih =>
    intro cur post result hwf hcur
    cases rec with
    | eq =>
      simp only [wfFrom, Bool.and_eq_true, decide_eq_true_eq] at hwf
      simp only [renderLoop]
      exact ih (cur + 1) post result hwf.2 (by omega)
    | removed =>
      simp only [wfFrom, Bool.and_eq_true, decide_eq_true_eq] at hwf
      simp only [renderLoop]
      have hs := contextRows_isSome lines cur post cfg.contextLines ww (by omega)
      cases hc : contextRows lines cur post cfg.contextLines ww with
      | none => rw [hc] at hs; simp at hs
      | some ctx =>
        simp only []
        split
        · simp
        · cases hget : lines.get? cur with
          | none =>
            rw [List.get?_eq_none] at hget
            omega
          | some ln =>
            exact ih (cur + 1) (cur + 1) _ hwf.2 (by omega)
    | added right =>
      simp only [wfFrom] at hwf
      simp only [renderLoop]
      have hs := contextRows_isSome lines cur post cfg.contextLines ww (by omega)
      cases hc : contextRows lines cur post cfg.contextLines ww with
      | none => rw [hc] at hs; simp at hs
      | some ctx =>
        simp only []
        split
        · simp
        · exact ih cur cur _ hwf (by omega)
    | replaced diff =>
      simp only [wfFrom, Bool.and_eq_true, decide_eq_true_eq] at hwf
      simp only [renderLoop]
      have hs := contextRows_isSome lines cur post cfg.contextLines ww (by omega)
      cases hc : contextRows lines cur post cfg.contextLines ww with
      | none => rw [hc] at hs; simp at hs
      | some ctx =>
        simp only []
        split
        · simp
        · cases hget : lines.get? cur with
          | none =>
            rw [List.get?_eq_none] at hget
            omega
          | some ln =>
            simp only []
            have hrr := replacedRows_isSome cfg ww cur (result ++ ctx).length ln diff hwf.1.2
            cases hr : replacedRows cfg ww cur (result ++ ctx).length ln diff with
            | none => rw [hr] at hrr; simp at hrr
            | some rows =>
              simp only []
              exact ih (cur + 1) (cur + 1) _ hwf.2 (by omega)

/-- The context window of the very first change at line 0 emits nothing. -/
theorem contextRows_start (lines : List Str) (c : Nat) (ww : Int) :
    contextRows lines 0 (-1) c ww = some [] := by
  have h1 : ¬ ((0 : Int) ≤ -1) := by omega
  have hSL : max (max ((0 : Int) - (c : Int)) 0) 0 = 0 := by omega
  simp only [contextRows, if_neg h1, hSL]
  have hz : ((0 : Int) - 0).toNat = 0 := by omega
  rw [hz]
  simp [ctxRowsRange, gapMarker]

/-- C9, amended: a well-formed change stream — line-consuming records stay
within the lines of `a` and every Replaced sub-diff contains at least one
non-Equal change — renders without reaching any error branch (coverage of
the full line is not required); a Replaced record whose sub-diff is empty
or all-Equal is a signalled error, as is a Removed record addressing a
line outside `a`. -/
theorem C9_amended :
    (∀ (a : Str) (cs : List ChangeRecord) (cfg : Config) (ww : Int),
       wfFrom cs 0 (prepLines a).length = true →
       (generateStringDiff a cs cfg ww).isSome = true) ∧
    (∀ (a : Str) (d : List CharChange) (rest : List ChangeRecord) (cfg : Config) (ww : Int),
       0 < cfg.maxChunks → d.any nonEqChar = false →
       generateStringDiff a (.replaced d :: rest) cfg ww = none) ∧
    (∀ (rest : List ChangeRecord) (cfg : Config) (ww : Int),
       0 < cfg.maxChunks →
       generateStringDiff [] (.removed :: rest) cfg ww = none) := by
  refine ⟨?_, ?_, ?_⟩
  · intro a cs cfg ww hwf
    exact renderLoop_wf_isSome (prepLines a) cfg ww cs 0 (-1) [] hwf (Nat.zero_le _)
  · intro a d rest cfg ww hmc heq
    show renderLoop (prepLines a) cfg ww (.replaced d :: rest) 0 (-1) [] = none
    simp only [renderLoop, Nat.cast_zero, contextRows_start, List.nil_append, List.length_nil]
    rw [if_neg (by omega)]
    cases hget : (prepLines a).get? 0 with
    | none => simp
    | some ln =>
      simp only []
      rw [replacedRows_all_eq cfg ww 0 0 ln d heq]
  · intro rest cfg ww hmc
    show renderLoop (prepLines []) cfg ww (.removed :: rest) 0 (-1) [] = none
    have hpl : prepLines ([] : Str) = [] := rfl
    rw [hpl]
    simp only [renderLoop, Nat.cast_zero, contextRows_start, List.nil_append, List.length_nil]
    rw [if_neg (by omega)]
    simp

/-- C9, witness: the amended statement at a well-formed stream (the
removed-line scenario), an all-Equal Replaced sub-diff, and a Removed
record against the empty operand. -/
theorem C9_amended_witness :
    (generateStringDiff a8 cs8 defaultConfig 80).isSome = true ∧
    generateStringDiff "xy\n".toList [.replaced [.eq "xy".toList]] defaultConfig 80 = none ∧
    generateStringDiff [] [.removed] defaultConfig 80 = none :=
  ⟨C9_amended.1 a8 cs8 defaultConfig 80 (by decide),
   C9_amended.2.1 "xy\n".toList [.eq "xy".toList] [] defaultConfig 80 (by decide) (by decide),
   C9_amended.2.2 [] defaultConfig 80 (by decide)⟩

/-- The escape flag advances by one scanner step per character. -/
theorem escAt_succ (str : Str) (i : Nat) (c : Char) (rest : List Char)
    (h : str.drop i = c :: rest) :
    escAt str (i + 1) = nextEscFlag (escAt str i) c := by
  obtain ⟨_, _, _, hget, _⟩ := dropFacts str i c rest h
  unfold escAt
  rw [List.take_succ, hget]
  simp [List.foldl_append]

/-- The visible-character count of an empty span. -/
theorem visCount_self (str : Str) (a : Nat) : visCount str a a = 0 := by
  simp [visCount]

/-- A visible character at `b` adds one to the count. -/
theorem visCount_succ_vis (str : Str) (a b : Nat) (hab : a ≤ b)
    (h : visAt str b = true) :
    visCount str a (b + 1) = visCount str a b + 1 := by
  unfold visCount
  have h1 : b + 1 - a = (b - a) + 1 := by omega
  have h2 : a + 1 * (b - a) = b := by omega
  rw [h1, List.range'_concat, List.filter_append, List.length_append, h2,
    List.filter_singleton]
  simp [h]

/-- An invisible character at `b` leaves the count unchanged. -/
theorem visCount_succ_invis (str : Str) (a b : Nat) (hab : a ≤ b)
    (h : visAt str b = false) :
    visCount str a (b + 1) = visCount str a b := by
  unfold visCount
  have h1 : b + 1 - a = (b - a) + 1 := by omega
  have h2 : a + 1 * (b - a) = b := by omega
  rw [h1, List.range'_concat, List.filter_append, List.length_append, h2,
    List.filter_singleton]
  simp [h]

/-- The scanning loop's output is exactly the rendering of its row spans:
`lbGo` equals the accumulated result followed by `renderRows` of
`lbRows`. -/
theorem lbGo_renderRows (str pfx : Str) (ind : Nat) :
    ∀ (rem : List Char) (i start ct : Nat) (inSeq : Bool) (ww : Int) (result : Str),
      lbGo str pfx ind rem i start ct inSeq ww result =
        result ++ renderRows str pfx (lbRows str ind rem i start ct inSeq ww) := by
  intro rem
  induction rem with
  | nil =>
    intro i start ct inSeq ww result
    simp only [lbGo, lbRows]
    by_cases hs : start ≠ str.length
    · rw [if_pos hs, if_pos hs]
      simp only [renderRows, List.append_nil]
      by_cases h0 : start ≠ 0
      · rw [if_pos h0, if_pos h0]
        simp
      · rw [if_neg h0, if_neg h0]
        simp
    · rw [if_neg hs, if_neg hs]
      simp [renderRows]
  | cons c rest ih =>
    intro i start ct inSeq ww result
    simp only [lbGo, lbRows]
    by_cases hesc : c = esc
    · rw [if_pos hesc, if_pos hesc]
      exact ih (i + 1) start ct true ww result
    · rw [if_neg hesc, if_neg hesc]
      cases inSeq with
      | true =>
        by_cases hm : c = 'm'
        · simp only [if_pos hm, if_true]
          exact ih (i + 1) start ct false ww result
        · simp only [if_neg hm, if_true]
          exact ih (i + 1) start ct true ww result
      | false =>
        simp only [Bool.false_eq_true, if_false]
        by_cases hbr : (c = '\n' ∨ ((ct + 1 : Nat) : Int) = ww)
        · rw [if_pos hbr, if_pos hbr]
          rw [ih (i + 1) (i + 1) 0 false (if start ≠ 0 then ww else ww - ind)]
          simp only [renderRows]
          by_cases h0 : start = 0 <;> by_cases hnl : c = '\n' <;>
            simp [h0, hnl]
        · rw [if_neg hbr, if_neg hbr]
          exact ih (i + 1) start (ct + 1) false ww result

/-- Every row span the scanner produces starts at an escape-closed
position: no inserted row boundary falls inside an escape sequence. -/
theorem lbRows_rowstart_escape (str : Str) (ind : Nat) :
    ∀ (rem : List Char) (i start ct : Nat) (inSeq : Bool) (ww : Int),
      rem = str.drop i →
      inSeq = escAt str i →
      escAt str start = false →
      ∀ p ∈ lbRows str ind rem i start ct inSeq ww, escAt str p.1 = false := by
  intro rem
  induction rem with
  | nil =>
    intro i start ct inSeq ww _ _ hstart p hp
    simp only [lbRows] at hp
    split at hp
    · simp only [List.mem_singleton] at hp
      subst hp
      exact hstart
    · simp at hp
  | cons c rest ih =>
    intro i start ct inSeq ww hrem hseq hstart p hp
    obtain ⟨hi, hrest, hgd, hget, hmem⟩ := dropFacts str i c rest hrem.symm
    have hstep := escAt_succ str i c rest hrem.symm
    simp only [lbRows] at hp
    by_cases hesc : c = esc
    · rw [if_pos hesc] at hp
      refine ih (i + 1) start ct true ww hrest.symm ?_ hstart p hp
      rw [hstep, ← hseq, nextEscFlag, if_pos hesc]
    · rw [if_neg hesc] at hp
      cases hseq' : inSeq with
      | true =>
        rw [hseq'] at hp
        simp only [if_true] at hp
        by_cases hm : c = 'm'
        · rw [if_pos hm] at hp
          refine ih (i + 1) start ct false ww hrest.symm ?_ hstart p hp
          rw [hstep, ← hseq, hseq', nextEscFlag, if_neg hesc]
          simp [hm]
        · rw [if_neg hm] at hp
          refine ih (i + 1) start ct true ww hrest.symm ?_ hstart p hp
          rw [hstep, ← hseq, hseq', nextEscFlag, if_neg hesc]
          simp [hm]
      | false =>
        rw [hseq'] at hp
        simp only [Bool.false_eq_true, if_false] at hp
        have hnext : escAt str (i + 1) = false := by
          rw [hstep, ← hseq, hseq', nextEscFlag, if_neg hesc]
          simp
        by_cases hbr : (c = '\n' ∨ ((ct + 1 : Nat) : Int) = ww)
        · rw [if_pos hbr] at hp
          simp only [List.mem_cons] at hp
          cases hp with
          | inl hp0 =>
            subst hp0
            exact hstart
          | inr hp1 =>
            exact ih (i + 1) (i + 1) 0 false _ hrest.symm hnext.symm hnext p hp1
        · rw [if_neg hbr] at hp
          exact ih (i + 1) start (ct + 1) false ww hrest.symm hnext.symm hstart p hp

/-- Every row span the scanner closes is closed either at the end of the
input, at a literal newline, or at exactly the effective width of visible
characters — escape-sequence characters never advance the counter. -/
theorem lbRows_width (str : Str) (ind : Nat) (ww0 : Int) :
    ∀ (rem : List Char) (i start ct : Nat) (inSeq : Bool) (ww : Int),
      rem = str.drop i →
      inSeq = escAt str i →
      start ≤ i →
      ct = visCount str start i →
      ww = effWidth ind ww0 start →
      ∀ p ∈ lbRows str ind rem i start ct inSeq ww,
        p.2 = str.length ∨ str.getD p.2 ' ' = '\n' ∨
        (visCount str p.1 p.2 : Int) = effWidth ind ww0 p.1 := by
  intro rem
  induction rem with
  | nil =>
    intro i start ct inSeq ww _ _ _ _ _ p hp
    simp only [lbRows] at hp
    split at hp
    · simp only [List.mem_singleton] at hp
      subst hp
      exact Or.inl rfl
    · simp at hp
  | cons c rest ih =>
    intro i start ct inSeq ww hrem hseq hle hct hww p hp
    obtain ⟨hi, hrest, hgd, hget, hmem⟩ := dropFacts str i c rest hrem.symm
    have hstep := escAt_succ str i c rest hrem.symm
    simp only [lbRows] at hp
    by_cases hesc : c = esc
    · rw [if_pos hesc] at hp
      have hinvis : visAt str i = false := by
        simp [visAt, hget, hesc]
      refine ih (i + 1) start ct true ww hrest.symm ?_ (by omega) ?_ hww p hp
      · rw [hstep, ← hseq, nextEscFlag, if_pos hesc]
      · rw [hct, visCount_succ_invis str start i hle hinvis]
    · rw [if_neg hesc] at hp
      cases hseq' : inSeq with
      | true =>
        rw [hseq'] at hp
        simp only [if_true] at hp
        have hinvis : visAt str i = false := by
          simp only [visAt, ← hseq, hseq']
          simp
        by_cases hm : c = 'm'
        · rw [if_pos hm] at hp
          refine ih (i + 1) start ct false ww hrest.symm ?_ (by omega) ?_ hww p hp
          · rw [hstep, ← hseq, hseq', nextEscFlag, if_neg hesc]
            simp [hm]
          · rw [hct, visCount_succ_invis str start i hle hinvis]
        · rw [if_neg hm] at hp
          refine ih (i + 1) start ct true ww hrest.symm ?_ (by omega) ?_ hww p hp
          · rw [hstep, ← hseq, hseq', nextEscFlag, if_neg hesc]
            simp [hm]
          · rw [hct, visCount_succ_invis str start i hle hinvis]
      | false =>
        rw [hseq'] at hp
        simp only [Bool.false_eq_true, if_false] at hp
        have hvis : visAt str i = true := by
          simp only [visAt, ← hseq, hseq', hgd]
          simp [hesc]
        have hnext : escAt str (i + 1) = false := by
          rw [hstep, ← hseq, hseq', nextEscFlag, if_neg hesc]
          simp
        have hsucc : visCount str start (i + 1) = ct + 1 := by
          rw [hct]
          exact visCount_succ_vis str start i hle hvis
        by_cases hbr : (c = '\n' ∨ ((ct + 1 : Nat) : Int) = ww)
        · rw [if_pos hbr] at hp
          simp only [List.mem_cons] at hp
          cases hp with
          | inl hp0 =>
            subst hp0
            by_cases hnl : c = '\n'
            · refine Or.inr (Or.inl ?_)
              simp only [if_pos hnl]
              rw [hgd, hnl]
            · have hw : ((ct + 1 : Nat) : Int) = ww := hbr.resolve_left hnl
              refine Or.inr (Or.inr ?_)
              simp only [if_neg hnl]
              rw [hsucc, hw, hww]
          | inr hp1 =>
            refine ih (i + 1) (i + 1) 0 false _ hrest.symm hnext.symm (Nat.le_refl _)
              (visCount_self str (i + 1)).symm ?_ p hp1
            by_cases h0 : start = 0
            · rw [if_neg (by omega)]
              rw [hww, effWidth, if_pos h0, effWidth, if_neg (by omega)]
            · rw [if_pos h0]
              rw [hww, effWidth, if_neg h0, effWidth, if_neg (by omega)]
        · rw [if_neg hbr] at hp
          exact ih (i + 1) start (ct + 1) false ww hrest.symm hnext.symm (by omega)
            hsucc.symm hww p hp

/-- C5: the wrapper splits its input into the physical rows `lineBreakRows`
(conjunct 1: the output is exactly the rendering of those spans); every row
starts at an escape-closed position, so no escape sequence is ever split
across two physical rows (conjunct 2); and a row is closed only at the end
of the input, at a literal newline, or after exactly the effective width of
*visible* characters — characters belonging to an escape sequence
contribute zero to the column count (conjunct 3). -/
theorem C5_wrap_escape_aware (str : Str) (ind : Nat) (ww : Int) :
    lineBreak str ind ww = renderRows str (spaces ind) (lineBreakRows str ind ww) ∧
    (∀ p ∈ lineBreakRows str ind ww, escAt str p.1 = false) ∧
    (∀ p ∈ lineBreakRows str ind ww,
       p.2 = str.length ∨ str.getD p.2 ' ' = '\n' ∨
       (visCount str p.1 p.2 : Int) = effWidth ind ww p.1) := by
  unfold lineBreak lineBreakRows
  by_cases hfast : (str.length : Int) ≤ ww
  · simp only [if_pos hfast]
    refine ⟨?_, ?_, ?_⟩
    · simp [renderRows, jsSub]
    · intro p hp
      simp only [List.mem_singleton] at hp
      subst hp
      rfl
    · intro p hp
      simp only [List.mem_singleton] at hp
      subst hp
      exact Or.inl rfl
  · simp only [if_neg hfast]
    refine ⟨?_, ?_, ?_⟩
    · simpa using lbGo_renderRows str (spaces ind) ind str 0 0 0 false ww []
    · exact lbRows_rowstart_escape str ind str 0 0 0 false ww (by simp) rfl rfl
    · exact lbRows_width str ind ww str 0 0 0 false ww (by simp) rfl (Nat.le_refl 0)
        (visCount_self str 0).symm rfl
